import Mathlib

/-!
Verification of the helper functions in `gdpr/utils.py` of django-GDPR.

The Python functions are shallowly embedded as Lean functions:

* sliceable sequences and querysets are modelled as `List` values; a queryset
  of records is represented by the list of its primary keys (`List Int`),
  so that zero and negative primary keys are representable;
* `QuerySet.order_by('pk')` is modelled by sorting the key list;
* generator yields are modelled by returning the list of yielded values;
* Python `while`/`for` loops are modelled with an explicit fuel argument,
  `none` standing for a computation that does not finish within the fuel;
* exceptions are modelled with `Except`/`Option` results.
-/

/-- Embedding of the `for i in count()` loop of `chunked_iterator`: at loop
index `i` the slice `iterable[start : start + chunk_size]` (with
`start = i * chunk_size`) is fetched and its items yielded, and the loop
breaks once the fetched chunk is shorter than `chunk_size`. -/
def chunkedIterGo {α : Type} (iterable : List α) (chunk_size : Nat) :
    Nat → Nat → Option (List α)
  | 0, _ => none
  | fuel + 1, i =>
    let start := i * chunk_size
    let chunk := (iterable.drop start).take chunk_size
    if chunk.length < chunk_size then
      some chunk
    else
      (chunkedIterGo iterable chunk_size fuel (i + 1)).map (fun rest => chunk ++ rest)

/-- Embedding of `chunked_iterator(iterable, chunk_size)`: the list of all
items yielded by the generator, or `none` if the loop were to run forever
(the fuel `iterable.length + 1` is shown sufficient below for positive
`chunk_size`). -/
def chunked_iterator {α : Type} (iterable : List α) (chunk_size : Nat) :
    Option (List α) :=
  chunkedIterGo iterable chunk_size (iterable.length + 1) 0

theorem chunkedIterGo_eq_drop {α : Type} (l : List α) (cs : Nat) (hcs : 0 < cs) :
    ∀ fuel i, (l.drop (i * cs)).length < fuel →
      chunkedIterGo l cs fuel i = some (l.drop (i * cs)) := by
  intro fuel
  induction fuel with
  | zero => intro i h; exact absurd h (Nat.not_lt_zero _)
  | succ f ih =>
    intro i h
    by_cases hkey : (l.drop (i * cs)).length < cs
    · simp only [chunkedIterGo]
      rw [List.take_of_length_le (Nat.le_of_lt hkey), if_pos hkey]
    · have hneg : ¬ ((l.drop (i * cs)).take cs).length < cs := by
        rw [List.length_take, Nat.min_def, if_pos (Nat.le_of_not_lt hkey)]
        exact Nat.lt_irrefl cs
      simp only [chunkedIterGo, if_neg hneg]
      have hdrop : l.drop ((i + 1) * cs) = (l.drop (i * cs)).drop cs := by
        rw [List.drop_drop]
        congr 1
        ring
      have hrec : (l.drop ((i + 1) * cs)).length < f := by
        rw [hdrop, List.length_drop]
        omega
      rw [ih (i + 1) hrec, hdrop, Option.map_some']
      congr 1
      exact List.take_append_drop cs (l.drop (i * cs))

/-- C2: for every sliceable sequence and every positive `chunk_size`,
`chunked_iterator` terminates and yields every item of the sequence exactly
once, in the sequence's order; moreover as soon as a fetched chunk is shorter
than `chunk_size` the loop stops, yielding that chunk and fetching nothing
further. -/
theorem chunked_iterator_yields_all {α : Type} (l : List α) (cs : Nat)
    (hcs : 0 < cs) :
    chunked_iterator l cs = some l ∧
    (∀ fuel i, ((l.drop (i * cs)).take cs).length < cs →
      chunkedIterGo l cs (fuel + 1) i = some ((l.drop (i * cs)).take cs)) := by
  constructor
  · have h0 : (l.drop (0 * cs)).length < l.length + 1 := by
      simp
    have := chunkedIterGo_eq_drop l cs hcs (l.length + 1) 0 h0
    simpa [chunked_iterator] using this
  · intro fuel i hshort
    simp only [chunkedIterGo, if_pos hshort]

theorem chunked_iterator_yields_all_witness :
    0 < 2 ∧ chunked_iterator [(1 : Int), 2, 3] 2 = some [(1 : Int), 2, 3] :=
  ⟨by decide, (chunked_iterator_yields_all [(1 : Int), 2, 3] 2 (by decide)).1⟩

/-- Embedding of the `end_pk` computation in the body of `chunked_queryset`:
`queryset.filter(pk__gt=start_pk).values_list('pk', flat=True)[chunk_size - 1]`,
falling back on `IndexError` to `queryset.values_list('pk', flat=True).last()`.
The queryset is represented by its pk-ordered list of primary keys, so the
subscript is list indexing and `.last()` is `getLast?`; the `.getD 0` default
is unreachable in `chunkedQsGo`, which computes `end_pk` only after checking
that an entry greater than `start_pk` exists (so the queryset is nonempty). -/
def next_end_pk (queryset : List Int) (chunk_size : Nat) (start_pk : Int) : Int :=
  match (queryset.filter (fun pk => decide (start_pk < pk)))[chunk_size - 1]? with
  | some pk => pk
  | none => (queryset.getLast?).getD 0

/-- Embedding of the `while True` loop of `chunked_queryset`, acting on the
pk-ordered queryset: break when no entry with pk greater than `start_pk` is
left (`not queryset.filter(pk__gt=start_pk).exists()`), otherwise compute
`end_pk`, yield the chunk
`queryset.filter(pk__gt=start_pk).filter(pk__lte=end_pk)` and continue with
`start_pk = end_pk`. The fuel argument bounds the number of iterations, and
`none` models a loop that does not finish within the fuel. -/
def chunkedQsGo (queryset : List Int) (chunk_size : Nat) :
    Nat → Int → Option (List (List Int))
  | 0, _ => none
  | fuel + 1, start_pk =>
    if queryset.filter (fun pk => decide (start_pk < pk)) = [] then
      some []
    else
      let end_pk := next_end_pk queryset chunk_size start_pk
      (chunkedQsGo queryset chunk_size fuel end_pk).map
        (fun rest =>
          ((queryset.filter (fun pk => decide (start_pk < pk))).filter
            (fun pk => decide (pk ≤ end_pk))) :: rest)

/-- Embedding of `queryset.order_by('pk')`: sort the primary keys ascending. -/
def order_by_pk (queryset : List Int) : List Int :=
  List.insertionSort (· ≤ ·) queryset

/-- Embedding of `chunked_queryset(queryset, chunk_size)`: the list of yielded
chunks, each chunk given by the primary keys of its records, starting from the
cursor `start_pk = 0`. The fuel `length + 1` is shown sufficient below. -/
def chunked_queryset (queryset : List Int) (chunk_size : Nat) :
    Option (List (List Int)) :=
  chunkedQsGo (order_by_pk queryset) chunk_size
    ((order_by_pk queryset).length + 1) 0

theorem mem_getLast? : ∀ (l : List Int) (e : Int), l.getLast? = some e → e ∈ l := by
  intro l
  induction l with
  | nil => intro e h; simp at h
  | cons x t ih =>
    intro e h
    cases t with
    | nil =>
      simp at h
      simp [h]
    | cons y t2 =>
      rw [List.getLast?_cons_cons] at h
      exact List.mem_cons_of_mem x (ih e h)

theorem le_getLast?_of_sorted :
    ∀ (l : List Int), l.Pairwise (· ≤ ·) →
      ∀ a ∈ l, ∀ e, l.getLast? = some e → a ≤ e := by
  intro l
  induction l with
  | nil => intro _ a ha; exact absurd ha (List.not_mem_nil a)
  | cons x t ih =>
    intro hs a ha e he
    rw [List.pairwise_cons] at hs
    cases t with
    | nil =>
      simp at he
      rcases List.mem_singleton.mp ha with rfl
      exact le_of_eq he
    | cons y t2 =>
      rw [List.getLast?_cons_cons] at he
      rcases List.mem_cons.mp ha with rfl | ha'
      · exact hs.1 e (mem_getLast? (y :: t2) e he)
      · exact ih hs.2 a ha' e he

theorem sorted_filter_le_eq_take :
    ∀ (l : List Int) (k : Nat) (e : Int), l.Pairwise (· < ·) → l[k]? = some e →
      l.filter (fun p => decide (p ≤ e)) = l.take (k + 1) := by
  intro l
  induction l with
  | nil => intro k e _ h; simp at h
  | cons x t ih =>
    intro k e hs h
    rw [List.pairwise_cons] at hs
    cases k with
    | zero =>
      rw [List.getElem?_cons_zero] at h
      injection h with h
      subst h
      rw [List.filter_cons, if_pos (by simp), List.take_succ_cons, List.take_zero]
      congr 1
      apply List.filter_eq_nil_iff.mpr
      intro a ha
      simp only [decide_eq_true_eq]
      exact not_le.mpr (hs.1 a ha)
    | succ k2 =>
      rw [List.getElem?_cons_succ] at h
      have hxe : x < e := hs.1 e (List.getElem?_mem h)
      rw [List.filter_cons, if_pos (by simp [le_of_lt hxe]), List.take_succ_cons]
      congr 1
      exact ih k2 e hs.2 h

theorem sorted_filter_gt_eq_drop :
    ∀ (l : List Int) (k : Nat) (e : Int), l.Pairwise (· < ·) → l[k]? = some e →
      l.filter (fun p => decide (e < p)) = l.drop (k + 1) := by
  intro l
  induction l with
  | nil => intro k e _ h; simp at h
  | cons x t ih =>
    intro k e hs h
    rw [List.pairwise_cons] at hs
    cases k with
    | zero =>
      rw [List.getElem?_cons_zero] at h
      injection h with h
      subst h
      rw [List.filter_cons, if_neg (by simp), List.drop_succ_cons, List.drop_zero]
      apply List.filter_eq_self.mpr
      intro a ha
      simp only [decide_eq_true_eq]
      exact hs.1 a ha
    | succ k2 =>
      rw [List.getElem?_cons_succ] at h
      have hxe : x < e := hs.1 e (List.getElem?_mem h)
      rw [List.filter_cons, if_neg (by simp [not_lt.mpr (le_of_lt hxe)]),
        List.drop_succ_cons]
      exact ih k2 e hs.2 h

theorem filter_gt_of_le (qs : List Int) (s e : Int) (hse : s ≤ e) :
    qs.filter (fun p => decide (e < p)) =
      (qs.filter (fun p => decide (s < p))).filter (fun p => decide (e < p)) := by
  rw [List.filter_filter]
  apply List.filter_congr
  intro a _
  by_cases h : e < a
  · simp [h, lt_of_le_of_lt hse h]
  · simp [h]

theorem lt_next_end_pk (qs : List Int) (cs : Nat) (s : Int)
    (hsorted : qs.Pairwise (· ≤ ·))
    (hne : qs.filter (fun pk => decide (s < pk)) ≠ []) :
    s < next_end_pk qs cs s := by
  unfold next_end_pk
  cases hm : (qs.filter (fun pk => decide (s < pk)))[cs - 1]? with
  | some e =>
    have he := List.of_mem_filter (List.getElem?_mem hm)
    simpa using he
  | none =>
    obtain ⟨p0, hp0⟩ := List.exists_mem_of_ne_nil _ hne
    have hp0s : s < p0 := by simpa using List.of_mem_filter hp0
    have hp0qs : p0 ∈ qs := List.mem_of_mem_filter hp0
    obtain ⟨e, he⟩ : ∃ e, qs.getLast? = some e := by
      cases hg : qs.getLast? with
      | some e => exact ⟨e, rfl⟩
      | none => exact absurd (List.getLast?_eq_none_iff.mp hg) (List.ne_nil_of_mem hp0qs)
    rw [he]
    exact lt_of_lt_of_le hp0s (le_getLast?_of_sorted qs hsorted p0 hp0qs e he)

theorem chunkedQsGo_spec (qs : List Int) (cs : Nat)
    (hsorted : qs.Pairwise (· < ·)) (hcs : 0 < cs) :
    ∀ fuel s, (qs.filter (fun pk => decide (s < pk))).length < fuel →
      ∃ chunks, chunkedQsGo qs cs fuel s = some chunks ∧
        chunks.flatten = qs.filter (fun pk => decide (s < pk)) ∧
        ∀ c ∈ chunks, c.length ≤ cs := by
  have hsorted_le : qs.Pairwise (· ≤ ·) := hsorted.imp le_of_lt
  intro fuel
  induction fuel with
  | zero => intro s h; exact absurd h (Nat.not_lt_zero _)
  | succ f ih =>
    intro s h
    by_cases hnil : qs.filter (fun pk => decide (s < pk)) = []
    · refine ⟨[], ?_, ?_, ?_⟩
      · simp [chunkedQsGo, hnil]
      · simp [hnil]
      · intro c hc
        exact absurd hc (List.not_mem_nil c)
    · have hrem_sorted : (qs.filter (fun pk => decide (s < pk))).Pairwise (· < ·) :=
        hsorted.filter _
      cases hm : (qs.filter (fun pk => decide (s < pk)))[cs - 1]? with
      | some e =>
        have hend : next_end_pk qs cs s = e := by
          unfold next_end_pk
          rw [hm]
        have hse : s < e := by
          have := List.of_mem_filter (List.getElem?_mem hm)
          simpa using this
        have htake :
            (qs.filter (fun pk => decide (s < pk))).filter (fun pk => decide (pk ≤ e)) =
              (qs.filter (fun pk => decide (s < pk))).take cs := by
          have := sorted_filter_le_eq_take _ (cs - 1) e hrem_sorted hm
          rwa [Nat.sub_add_cancel hcs] at this
        have hdrop : qs.filter (fun pk => decide (e < pk)) =
            (qs.filter (fun pk => decide (s < pk))).drop cs := by
          rw [filter_gt_of_le qs s e (le_of_lt hse)]
          have := sorted_filter_gt_eq_drop _ (cs - 1) e hrem_sorted hm
          rwa [Nat.sub_add_cancel hcs] at this
        have hlen : cs ≤ (qs.filter (fun pk => decide (s < pk))).length := by
          rcases List.getElem?_eq_some.mp hm with ⟨hk, _⟩
          omega
        have hrec : (qs.filter (fun pk => decide (e < pk))).length < f := by
          rw [hdrop, List.length_drop]
          omega
        obtain ⟨chunks2, heq2, hflat2, hlen2⟩ := ih e hrec
        refine ⟨((qs.filter (fun pk => decide (s < pk))).filter
          (fun pk => decide (pk ≤ e))) :: chunks2, ?_, ?_, ?_⟩
        · simp only [chunkedQsGo, if_neg hnil]
          rw [hend, heq2, Option.map_some']
        · rw [List.flatten_cons, hflat2, htake, hdrop]
          exact List.take_append_drop cs _
        · intro c hc
          rcases List.mem_cons.mp hc with rfl | hc2
          · rw [htake]
            exact List.length_take_le cs _
          · exact hlen2 c hc2
      | none =>
        obtain ⟨p0, hp0⟩ := List.exists_mem_of_ne_nil _ hnil
        have hp0s : s < p0 := by simpa using List.of_mem_filter hp0
        have hp0qs : p0 ∈ qs := List.mem_of_mem_filter hp0
        obtain ⟨e, he⟩ : ∃ e, qs.getLast? = some e := by
          cases hg : qs.getLast? with
          | some e => exact ⟨e, rfl⟩
          | none => exact absurd (List.getLast?_eq_none_iff.mp hg) (List.ne_nil_of_mem hp0qs)
        have hend : next_end_pk qs cs s = e := by
          unfold next_end_pk
          rw [hm, he]
          rfl
        have hmax : ∀ p ∈ qs, p ≤ e := fun p hp =>
          le_getLast?_of_sorted qs hsorted_le p hp e he
        have hchunk :
            (qs.filter (fun pk => decide (s < pk))).filter (fun pk => decide (pk ≤ e)) =
              qs.filter (fun pk => decide (s < pk)) := by
          apply List.filter_eq_self.mpr
          intro a ha
          simpa using hmax a (List.mem_of_mem_filter ha)
        have hempty : qs.filter (fun pk => decide (e < pk)) = [] := by
          apply List.filter_eq_nil_iff.mpr
          intro a ha
          simpa using not_lt.mpr (hmax a ha)
        have hlenrem : 0 < (qs.filter (fun pk => decide (s < pk))).length :=
          List.length_pos.mpr hnil
        have hrec : (qs.filter (fun pk => decide (e < pk))).length < f := by
          rw [hempty]
          simp only [List.length_nil]
          omega
        obtain ⟨chunks2, heq2, hflat2, hlen2⟩ := ih e hrec
        have hshort : (qs.filter (fun pk => decide (s < pk))).length ≤ cs - 1 := by
          by_contra hgt
          push_neg at hgt
          rw [List.getElem?_eq_getElem hgt] at hm
          simp at hm
        refine ⟨((qs.filter (fun pk => decide (s < pk))).filter
          (fun pk => decide (pk ≤ e))) :: chunks2, ?_, ?_, ?_⟩
        · simp only [chunkedQsGo, if_neg hnil]
          rw [hend, heq2, Option.map_some']
        · rw [List.flatten_cons, hflat2, hempty, List.append_nil, hchunk]
        · intro c hc
          rcases List.mem_cons.mp hc with rfl | hc2
          · rw [hchunk]
            omega
          · exact hlen2 c hc2

theorem chunkedQsGo_all_gt (qs : List Int) (cs : Nat)
    (hsorted : qs.Pairwise (· ≤ ·)) :
    ∀ fuel s chunks, chunkedQsGo qs cs fuel s = some chunks →
      ∀ c ∈ chunks, ∀ p ∈ c, s < p := by
  intro fuel
  induction fuel with
  | zero => intro s chunks h; exact absurd h (by simp [chunkedQsGo])
  | succ f ih =>
    intro s chunks h
    by_cases hnil : qs.filter (fun pk => decide (s < pk)) = []
    · simp only [chunkedQsGo, if_pos hnil, Option.some.injEq] at h
      subst h
      intro c hc
      exact absurd hc (List.not_mem_nil c)
    · simp only [chunkedQsGo, if_neg hnil] at h
      cases hg : chunkedQsGo qs cs f (next_end_pk qs cs s) with
      | none =>
        rw [hg] at h
        exact absurd h (by simp)
      | some rest =>
        rw [hg, Option.map_some', Option.some.injEq] at h
        subst h
        intro c hc
        rcases List.mem_cons.mp hc with rfl | hc2
        · intro p hp
          have hp2 := List.of_mem_filter (List.mem_of_mem_filter hp)
          simpa using hp2
        · intro p hp
          have hcur : s < next_end_pk qs cs s := lt_next_end_pk qs cs s hsorted hnil
          exact lt_trans hcur (ih (next_end_pk qs cs s) rest hg c hc2 p hp)

/-- C1 (counterexample): for the queryset containing one record with primary
key 0 and `chunk_size = 1`, `chunked_queryset` yields no chunk at all, because
the cursor starts at 0 and no record has a strictly greater key; so the union
of all yielded chunks is empty and is not the input queryset. -/
theorem chunked_queryset_counterexample_zero_pk :
    chunked_queryset [(0 : Int)] 1 = some [] ∧
      ([] : List (List Int)).flatten ≠ [(0 : Int)] := by
  constructor
  · decide
  · decide

/-- C1 (amended): for every queryset over records with distinct primary keys
and every positive `chunk_size`, `chunked_queryset` yields, among the records
with positive primary key, every one exactly once and in strictly increasing
key order, and every yielded chunk holds at most `chunk_size` records; records
with primary key less than or equal to 0 are never yielded. -/
theorem chunked_queryset_yields_positive_records (queryset : List Int)
    (chunk_size : Nat) (hnd : queryset.Nodup) (hcs : 0 < chunk_size) :
    ∃ chunks, chunked_queryset queryset chunk_size = some chunks ∧
      chunks.flatten = (order_by_pk queryset).filter (fun pk => decide (0 < pk)) ∧
      chunks.flatten.Perm (queryset.filter (fun pk => decide (0 < pk))) ∧
      chunks.flatten.Pairwise (· < ·) ∧
      ∀ c ∈ chunks, c.length ≤ chunk_size := by
  have hsorted_le : (order_by_pk queryset).Pairwise (· ≤ ·) :=
    List.sorted_insertionSort (· ≤ ·) queryset
  have hnd2 : (order_by_pk queryset).Nodup :=
    ((List.perm_insertionSort (· ≤ ·) queryset).symm).nodup hnd
  have hsorted : (order_by_pk queryset).Pairwise (· < ·) :=
    List.Sorted.lt_of_le hsorted_le hnd2
  have hfuel :
      ((order_by_pk queryset).filter (fun pk => decide ((0 : Int) < pk))).length <
        (order_by_pk queryset).length + 1 :=
    Nat.lt_succ_of_le (List.length_filter_le _ _)
  obtain ⟨chunks, heq, hflat, hlen⟩ :=
    chunkedQsGo_spec (order_by_pk queryset) chunk_size hsorted hcs
      ((order_by_pk queryset).length + 1) 0 hfuel
  refine ⟨chunks, heq, hflat, ?_, ?_, hlen⟩
  · rw [hflat]
    exact List.Perm.filter _ (List.perm_insertionSort (· ≤ ·) queryset)
  · rw [hflat]
    exact hsorted.filter _

theorem chunked_queryset_yields_positive_records_witness :
    ([(2 : Int), 1, 3].Nodup ∧ 0 < 2) ∧
      (∃ chunks, chunked_queryset [(2 : Int), 1, 3] 2 = some chunks ∧
        chunks.flatten = (order_by_pk [(2 : Int), 1, 3]).filter (fun pk => decide (0 < pk)) ∧
        chunks.flatten.Perm ([(2 : Int), 1, 3].filter (fun pk => decide (0 < pk))) ∧
        chunks.flatten.Pairwise (· < ·) ∧
        ∀ c ∈ chunks, c.length ≤ 2) :=
  ⟨⟨by decide, by decide⟩,
    chunked_queryset_yields_positive_records [(2 : Int), 1, 3] 2 (by decide) (by decide)⟩

/-- C3: for every finite queryset with distinct primary keys and positive
`chunk_size`, `chunked_queryset` terminates within fuel `length + 1`; the
cursor strictly increases on every iteration (whenever a record greater than
the cursor is left, the computed `end_pk` is strictly greater than the
cursor), and the loop stops as soon as no record with primary key strictly
greater than the cursor exists. -/
theorem chunked_queryset_terminates (queryset : List Int) (chunk_size : Nat)
    (hnd : queryset.Nodup) (hcs : 0 < chunk_size) :
    (chunked_queryset queryset chunk_size).isSome = true ∧
    (∀ start_pk,
      (order_by_pk queryset).filter (fun pk => decide (start_pk < pk)) ≠ [] →
      start_pk < next_end_pk (order_by_pk queryset) chunk_size start_pk) ∧
    (∀ fuel start_pk,
      (order_by_pk queryset).filter (fun pk => decide (start_pk < pk)) = [] →
      chunkedQsGo (order_by_pk queryset) chunk_size (fuel + 1) start_pk = some []) := by
  have hsorted_le : (order_by_pk queryset).Pairwise (· ≤ ·) :=
    List.sorted_insertionSort (· ≤ ·) queryset
  have hnd2 : (order_by_pk queryset).Nodup :=
    ((List.perm_insertionSort (· ≤ ·) queryset).symm).nodup hnd
  have hsorted : (order_by_pk queryset).Pairwise (· < ·) :=
    List.Sorted.lt_of_le hsorted_le hnd2
  refine ⟨?_, ?_, ?_⟩
  · have hfuel :
        ((order_by_pk queryset).filter (fun pk => decide ((0 : Int) < pk))).length <
          (order_by_pk queryset).length + 1 :=
      Nat.lt_succ_of_le (List.length_filter_le _ _)
    obtain ⟨chunks, heq, -, -⟩ :=
      chunkedQsGo_spec (order_by_pk queryset) chunk_size hsorted hcs
        ((order_by_pk queryset).length + 1) 0 hfuel
    unfold chunked_queryset
    rw [heq]
    rfl
  · intro start_pk hne
    exact lt_next_end_pk (order_by_pk queryset) chunk_size start_pk hsorted_le hne
  · intro fuel start_pk hempty
    simp [chunkedQsGo, hempty]

theorem chunked_queryset_terminates_witness :
    ([(3 : Int), 1, 2].Nodup ∧ 0 < 2) ∧
      (chunked_queryset [(3 : Int), 1, 2] 2).isSome = true :=
  ⟨⟨by decide, by decide⟩,
    (chunked_queryset_terminates [(3 : Int), 1, 2] 2 (by decide) (by decide)).1⟩

/-- C10: every record yielded by `chunked_queryset` has a primary key strictly
greater than 0: the cursor starts at 0 and only grows, and every yielded chunk
is filtered to keys strictly greater than the cursor, so records with zero or
negative primary keys are never yielded, for every input queryset. -/
theorem chunked_queryset_skips_nonpositive (queryset : List Int)
    (chunk_size : Nat) (chunks : List (List Int)) (hcs : 0 < chunk_size)
    (h : chunked_queryset queryset chunk_size = some chunks) :
    ∀ c ∈ chunks, ∀ p ∈ c, 0 < p := by
  have hsorted_le : (order_by_pk queryset).Pairwise (· ≤ ·) :=
    List.sorted_insertionSort (· ≤ ·) queryset
  unfold chunked_queryset at h
  exact chunkedQsGo_all_gt (order_by_pk queryset) chunk_size hsorted_le
    ((order_by_pk queryset).length + 1) 0 chunks h

theorem chunked_queryset_skips_nonpositive_witness :
    chunked_queryset [(-1 : Int), 0, 2] 1 = some [[2]] ∧
      (∀ c ∈ [[(2 : Int)]], ∀ p ∈ c, 0 < p) :=
  ⟨by decide,
    chunked_queryset_skips_nonpositive [(-1 : Int), 0, 2] 1 [[2]] (by decide) (by decide)⟩

/-- Model of the wrapped output stream: `write` takes positional arguments
and keyword arguments (an association list in which the `ending` keyword
selects the line ending) and returns a result; `flush` takes nothing. -/
structure OutputStream (Arg WRes FRes : Type) where
  write : List Arg → List (String × String) → WRes
  flush : FRes

/-- Embedding of `ProgressBarStream.__init__`: wrap the given stream. -/
structure ProgressBarStream (Arg WRes FRes : Type) where
  stream : OutputStream Arg WRes FRes

/-- Embedding of `ProgressBarStream.write`: call the wrapped stream's `write`
with the same positional arguments and with `ending=""` added to the keyword
arguments, returning its result. -/
def ProgressBarStream.write {Arg WRes FRes : Type}
    (s : ProgressBarStream Arg WRes FRes) (args : List Arg)
    (kwargs : List (String × String)) : WRes :=
  s.stream.write args (("ending", "") :: kwargs)

/-- Embedding of `ProgressBarStream.flush`: call the wrapped stream's `flush`
with no extra arguments, returning its result. -/
def ProgressBarStream.flush {Arg WRes FRes : Type}
    (s : ProgressBarStream Arg WRes FRes) : FRes :=
  s.stream.flush

/-- C8: for every wrapped stream and every call, `ProgressBarStream.write`
forwards to the wrapped stream's `write` with the positional arguments
unchanged and the keyword arguments carrying an empty `ending` (suppressing
the default line break), returning that call's result unchanged, and
`ProgressBarStream.flush` forwards to the wrapped stream's `flush` with no
extra arguments and returns its result. -/
theorem progress_bar_stream_forwards {Arg WRes FRes : Type}
    (s : ProgressBarStream Arg WRes FRes) (args : List Arg)
    (kwargs : List (String × String)) :
    s.write args kwargs = s.stream.write args (("ending", "") :: kwargs) ∧
    (("ending", "") :: kwargs).lookup "ending" = some "" ∧
    s.flush = s.stream.flush := by
  refine ⟨rfl, ?_, rfl⟩
  simp [List.lookup]

/-- Failures of the schema field catalog: the catalog's own
`FieldDoesNotExist`, or any other error. -/
inductive FieldLookupError
  | fieldDoesNotExist
  | other (msg : String)
deriving DecidableEq

/-- Model of `model._meta`: the field catalog interface, which for a field
name either returns the field descriptor or fails. -/
structure ModelMeta (F : Type) where
  get_field : String → Except FieldLookupError F

/-- A concrete field catalog built from a list of named field descriptors:
`get_field` returns the descriptor when the name is present and fails with
`FieldDoesNotExist` otherwise. -/
def metaOfFields {F : Type} (fields : List (String × F)) : ModelMeta F :=
  ⟨fun name =>
    match fields.lookup name with
    | some f => Except.ok f
    | none => Except.error FieldLookupError.fieldDoesNotExist⟩

/-- Embedding of `get_field_or_none(model, field_name)`: call
`model._meta.get_field(field_name)` and swallow exactly the
`FieldDoesNotExist` failure into `None`; any other failure propagates. -/
def get_field_or_none {F : Type} (meta : ModelMeta F) (field_name : String) :
    Except FieldLookupError (Option F) :=
  match meta.get_field field_name with
  | Except.ok f => Except.ok (some f)
  | Except.error FieldLookupError.fieldDoesNotExist => Except.ok none
  | Except.error (FieldLookupError.other msg) =>
    Except.error (FieldLookupError.other msg)

/-- C4: `get_field_or_none` returns the field descriptor when the catalog
has the field, returns `none` rather than failing when the catalog reports
`FieldDoesNotExist` (in particular whenever the name is absent from a
concrete field catalog), and propagates any other failure unchanged. -/
theorem get_field_or_none_spec {F : Type} (meta : ModelMeta F)
    (fields : List (String × F)) (field_name : String) :
    (∀ f, meta.get_field field_name = Except.ok f →
      get_field_or_none meta field_name = Except.ok (some f)) ∧
    (meta.get_field field_name = Except.error FieldLookupError.fieldDoesNotExist →
      get_field_or_none meta field_name = Except.ok none) ∧
    (∀ msg, meta.get_field field_name = Except.error (FieldLookupError.other msg) →
      get_field_or_none meta field_name = Except.error (FieldLookupError.other msg)) ∧
    (∀ f, fields.lookup field_name = some f →
      get_field_or_none (metaOfFields fields) field_name = Except.ok (some f)) ∧
    (fields.lookup field_name = none →
      get_field_or_none (metaOfFields fields) field_name = Except.ok none) := by
  refine ⟨?_, ?_, ?_, ?_, ?_⟩
  · intro f h
    simp [get_field_or_none, h]
  · intro h
    simp [get_field_or_none, h]
  · intro msg h
    simp [get_field_or_none, h]
  · intro f h
    simp [get_field_or_none, metaOfFields, h]
  · intro h
    simp [get_field_or_none, metaOfFields, h]

theorem get_field_or_none_spec_witness :
    ([("id", (1 : Nat))].lookup "id" = some 1 ∧
      get_field_or_none (metaOfFields [("id", (1 : Nat))]) "id" = Except.ok (some 1)) ∧
    ([("id", (1 : Nat))].lookup "name" = none ∧
      get_field_or_none (metaOfFields [("id", (1 : Nat))]) "name" = Except.ok none) :=
  ⟨⟨by decide,
      (get_field_or_none_spec (metaOfFields [("id", 1)]) [("id", 1)] "id").2.2.2.1 1
        (by decide)⟩,
    ⟨by decide,
      (get_field_or_none_spec (metaOfFields [("id", 1)]) [("id", 1)] "name").2.2.2.2
        (by decide)⟩⟩

/-- Fuel-indexed count of the decimal digits of a natural number (the digits
of `n` written in base 10, at least one digit). -/
def decimalLenAux : Nat → Nat → Nat
  | 0, _ => 0
  | fuel + 1, n => if n < 10 then 1 else decimalLenAux fuel (n / 10) + 1

/-- Count of the decimal digits of a natural number; fuel `n + 1` always
suffices (see `decimalLen_eq`). -/
def decimalLen (n : Nat) : Nat :=
  decimalLenAux (n + 1) n

/-- Embedding of `len(str(int(value)))` for an integer `value`: the decimal
digits of its absolute value, plus one character for the sign when the value
is negative. -/
def str_int_len (value : Int) : Nat :=
  decimalLen value.natAbs + (if value < 0 then 1 else 0)

/-- Embedding of `get_number_guess_len(value)` with `value` already truncated
to its integer part (`int(value)`): the length of `str(int(value))` if that
length is odd, and that length minus one otherwise. -/
def get_number_guess_len (value : Int) : Nat :=
  let guess_len := str_int_len value
  if guess_len % 2 ≠ 0 then guess_len else guess_len - 1

theorem decimalLenAux_congr :
    ∀ (n f1 f2 : Nat), n < f1 → n < f2 → decimalLenAux f1 n = decimalLenAux f2 n := by
  intro n
  induction n using Nat.strong_induction_on with
  | _ n ih =>
    intro f1 f2 h1 h2
    cases f1 with
    | zero => omega
    | succ g1 =>
      cases f2 with
      | zero => omega
      | succ g2 =>
        by_cases h10 : n < 10
        · simp [decimalLenAux, h10]
        · have hd : n / 10 < n := Nat.div_lt_self (by omega) (by omega)
          simp only [decimalLenAux, if_neg h10]
          rw [ih (n / 10) hd g1 g2 (by omega) (by omega)]

/-- The defining recurrence of `decimalLen`, showing the fuel is adequate. -/
theorem decimalLen_eq (n : Nat) :
    decimalLen n = if n < 10 then 1 else decimalLen (n / 10) + 1 := by
  by_cases h10 : n < 10
  · simp [decimalLen, decimalLenAux, h10]
  · have hd : n / 10 < n := Nat.div_lt_self (by omega) (by omega)
    rw [if_neg h10]
    unfold decimalLen
    simp only [decimalLenAux, if_neg h10]
    congr 1
    exact decimalLenAux_congr (n / 10) n (n / 10 + 1) (by omega) (by omega)

theorem decimalLen_pos (n : Nat) : 0 < decimalLen n := by
  unfold decimalLen
  simp only [decimalLenAux]
  by_cases h10 : n < 10
  · rw [if_pos h10]
    omega
  · rw [if_neg h10]
    omega

/-- C9 (counterexample): the integer part `-10` has 2 decimal digits, an even
count, so the claim predicts the result `2 - 1 = 1`; but `len(str(-10))`
counts the sign character, giving 3, which is odd and returned as is. -/
theorem get_number_guess_len_counterexample_negative :
    decimalLen (Int.natAbs (-10)) = 2 ∧ 2 % 2 = 0 ∧
      get_number_guess_len (-10) = 3 ∧ get_number_guess_len (-10) ≠ 2 - 1 := by
  refine ⟨by decide, by decide, by decide, by decide⟩

/-- C9 (amended): for every nonnegative value whose integer part has `d`
decimal digits, `get_number_guess_len` returns `d` when `d` is odd and
`d - 1` when `d` is even (for negative values the sign character is also
counted); the result is always an odd number, for every value, even though
the docstring calls the result "the even length" of the whole part. -/
theorem get_number_guess_len_odd (value : Int) :
    (0 ≤ value →
      get_number_guess_len value =
        (if decimalLen value.natAbs % 2 = 1 then decimalLen value.natAbs
         else decimalLen value.natAbs - 1)) ∧
    get_number_guess_len value % 2 = 1 := by
  have hpos : 0 < decimalLen value.natAbs := decimalLen_pos value.natAbs
  constructor
  · intro hnn
    have hneg : ¬ value < 0 := not_lt.mpr hnn
    unfold get_number_guess_len str_int_len
    rw [if_neg hneg]
    by_cases hodd : decimalLen value.natAbs % 2 = 1
    · rw [if_pos (by omega), if_pos hodd]
      omega
    · rw [if_neg (by omega), if_neg hodd]
      omega
  · unfold get_number_guess_len str_int_len
    by_cases hneg : value < 0
    · rw [if_pos hneg]
      by_cases hodd : (decimalLen value.natAbs + 1) % 2 ≠ 0
      · rw [if_pos hodd]
        omega
      · rw [if_neg hodd]
        omega
    · rw [if_neg hneg]
      by_cases hodd : (decimalLen value.natAbs + 0) % 2 ≠ 0
      · rw [if_pos hodd]
        omega
      · rw [if_neg hodd]
        omega

theorem get_number_guess_len_odd_witness :
    ((0 : Int) ≤ 254 ∧
      get_number_guess_len 254 =
        (if decimalLen (Int.natAbs 254) % 2 = 1 then decimalLen (Int.natAbs 254)
         else decimalLen (Int.natAbs 254) - 1)) ∧
      get_number_guess_len 254 % 2 = 1 :=
  ⟨⟨by decide, (get_number_guess_len_odd 254).1 (by decide)⟩,
    (get_number_guess_len_odd 254).2⟩

/-- Resolution failures of `str_to_class`: Python's `ValueError` (from
unpacking the one-element result of `rsplit` on a dot-free string),
`ImportError` and `AttributeError`. -/
inductive ResolveError
  | valueError
  | importError
  | attributeError
deriving DecidableEq

/-- Embedding of `class_string.rsplit('.', 1)` followed by the two-variable
tuple unpacking: split the name (as a character list) at its last dot,
`none` when the string has no dot. -/
def rsplit_dot : List Char → Option (List Char × List Char)
  | [] => none
  | c :: rest =>
    match rsplit_dot rest with
    | some (module_part, class_part) => some (c :: module_part, class_part)
    | none => if c = '.' then some ([], rest) else none

/-- The Python module environment: a table of loadable modules, each a table
of its attributes. -/
structure PyModules (α : Type) where
  modules : List (List Char × List (List Char × α))

/-- Embedding of `__import__(module_name, globals(), locals(), [class_name])`:
look the module up in the environment, raising `ImportError` if the module
cannot be loaded. -/
def load_module {α : Type} (env : PyModules α) (module_name : List Char) :
    Except ResolveError (List (List Char × α)) :=
  match env.modules.lookup module_name with
  | some m => Except.ok m
  | none => Except.error ResolveError.importError

/-- Embedding of `getattr(m, class_name)`: look the attribute up on the
module, raising `AttributeError` if it cannot be found. -/
def py_getattr {α : Type} (m : List (List Char × α)) (class_name : List Char) :
    Except ResolveError α :=
  match m.lookup class_name with
  | some c => Except.ok c
  | none => Except.error ResolveError.attributeError

/-- Embedding of `str_to_class(class_string)`. -/
def str_to_class {α : Type} (env : PyModules α) (class_string : List Char) :
    Except ResolveError α :=
  match rsplit_dot class_string with
  | none => Except.error ResolveError.valueError
  | some (module_name, class_name) =>
    match load_module env module_name with
    | Except.error e => Except.error e
    | Except.ok m => py_getattr m class_name

theorem rsplit_dot_eq_none_iff :
    ∀ (s : List Char), rsplit_dot s = none ↔ '.' ∉ s := by
  intro s
  induction s with
  | nil => simp [rsplit_dot]
  | cons c rest ih =>
    cases hr : rsplit_dot rest with
    | some p =>
      rcases p with ⟨mp, cp⟩
      have hdot : '.' ∈ rest := by
        by_contra hnd
        rw [ih.mpr hnd] at hr
        exact Option.noConfusion hr
      simp only [rsplit_dot, hr]
      constructor
      · intro h
        exact Option.noConfusion h
      · intro h
        exact absurd (List.mem_cons_of_mem c hdot) h
    | none =>
      simp only [rsplit_dot, hr]
      by_cases hc : c = '.'
      · subst hc
        simp
      · rw [if_neg hc]
        have hrest : '.' ∉ rest := ih.mp hr
        constructor
        · intro _ hmem
          rcases List.mem_cons.mp hmem with heq | hmem2
          · exact hc heq.symm
          · exact hrest hmem2
        · intro _
          rfl

theorem rsplit_dot_spec :
    ∀ (s module_name class_name : List Char),
      rsplit_dot s = some (module_name, class_name) →
        s = module_name ++ '.' :: class_name ∧ '.' ∉ class_name := by
  intro s
  induction s with
  | nil => intro mp cp h; exact Option.noConfusion h
  | cons c rest ih =>
    intro mp cp h
    simp only [rsplit_dot] at h
    cases hr : rsplit_dot rest with
    | some p =>
      rcases p with ⟨mp2, cp2⟩
      rw [hr] at h
      simp only [Option.some.injEq, Prod.mk.injEq] at h
      obtain ⟨h1, h2⟩ := h
      subst h1
      subst h2
      obtain ⟨hrest, hnd⟩ := ih mp2 cp2 hr
      constructor
      · rw [List.cons_append, hrest]
      · exact hnd
    | none =>
      rw [hr] at h
      by_cases hc : c = '.'
      · rw [if_pos hc] at h
        simp only [Option.some.injEq, Prod.mk.injEq] at h
        obtain ⟨h1, h2⟩ := h
        subst h1
        subst h2
        subst hc
        exact ⟨rfl, (rsplit_dot_eq_none_iff rest).mp hr⟩
      · rw [if_neg hc] at h
        exact Option.noConfusion h

/-- C5: for every dotted path string — one on which `rsplit('.', 1)` yields a
module part and a class part, i.e. exactly the strings containing a dot,
split at the last dot — `str_to_class` resolves the module named by the part
before the last dot and returns the attribute named by the part after it
when both exist; when the module is missing the `ImportError` propagates to
the caller, and when the attribute is missing the `AttributeError`
propagates to the caller. -/
theorem str_to_class_spec {α : Type} (env : PyModules α)
    (s module_name class_name : List Char)
    (hsplit : rsplit_dot s = some (module_name, class_name)) :
    (s = module_name ++ '.' :: class_name ∧ '.' ∉ class_name) ∧
    (∀ m v, env.modules.lookup module_name = some m →
      m.lookup class_name = some v → str_to_class env s = Except.ok v) ∧
    (env.modules.lookup module_name = none →
      str_to_class env s = Except.error ResolveError.importError) ∧
    (∀ m, env.modules.lookup module_name = some m →
      m.lookup class_name = none →
      str_to_class env s = Except.error ResolveError.attributeError) := by
  refine ⟨rsplit_dot_spec s module_name class_name hsplit, ?_, ?_, ?_⟩
  · intro m v hm hv
    simp [str_to_class, load_module, py_getattr, hsplit, hm, hv]
  · intro hm
    simp [str_to_class, load_module, hsplit, hm]
  · intro m hm hv
    simp [str_to_class, load_module, py_getattr, hsplit, hm, hv]

theorem str_to_class_spec_witness :
    (rsplit_dot ['a', '.', 'B'] = some (['a'], ['B'])) ∧
      str_to_class (PyModules.mk [(['a'], [(['B'], (7 : Nat))])]) ['a', '.', 'B'] =
        Except.ok 7 ∧
      str_to_class (PyModules.mk ([] : List (List Char × List (List Char × Nat))))
          ['a', '.', 'B'] =
        Except.error ResolveError.importError :=
  ⟨by decide,
    (str_to_class_spec (PyModules.mk [(['a'], [(['B'], (7 : Nat))])])
        ['a', '.', 'B'] ['a'] ['B'] (by decide)).2.1
      [(['B'], 7)] 7 (by decide) (by decide),
    (str_to_class_spec (PyModules.mk ([] : List (List Char × List (List Char × Nat))))
        ['a', '.', 'B'] ['a'] ['B'] (by decide)).2.2.1 (by decide)⟩

/-- Path walking as the spec describes it: follow the chain of attribute
lookups from `obj`, giving an absent value as soon as any step is absent.
This is the specification-side definition against which
`get_all_parent_objects` is checked. -/
def walk_path {Obj : Type} (attr : Obj → List Char → Option Obj) :
    Obj → List (List Char) → Option Obj
  | obj, [] => some obj
  | obj, name :: rest =>
    match attr obj name with
    | some next => walk_path attr next rest
    | none => none

/-- Embedding of `get_all_parent_objects(obj)`. Attribute access on a model
instance is modelled by `attr : Obj → List Char → Option Obj`, so that
`getattr(x, name, None)` is `attr x name` on a present object and `None`
(`none`) when the receiver is already `None`; `parent_paths` stands for the
lists of join-field names computed by `obj._meta.get_path_to_parent` over
`obj._meta.get_parent_list()`. The final list comprehension keeps the
non-`None` results. -/
def get_all_parent_objects {Obj : Type} (attr : Obj → List Char → Option Obj)
    (parent_paths : List (List (List Char))) (obj : Obj) : List Obj :=
  let parent_objects := parent_paths.map (fun parent_path =>
    parent_path.foldl
      (fun parent_obj path => parent_obj.bind (fun o => attr o path)) (some obj))
  parent_objects.filterMap (fun i => i)

theorem foldl_attr_none {Obj : Type} (attr : Obj → List Char → Option Obj) :
    ∀ (path : List (List Char)),
      path.foldl (fun parent_obj p => parent_obj.bind (fun o => attr o p)) none =
        none := by
  intro path
  induction path with
  | nil => rfl
  | cons p rest ih =>
    rw [List.foldl_cons]
    simpa using ih

theorem foldl_attr_eq_walk {Obj : Type} (attr : Obj → List Char → Option Obj) :
    ∀ (path : List (List Char)) (obj : Obj),
      path.foldl (fun parent_obj p => parent_obj.bind (fun o => attr o p))
          (some obj) =
        walk_path attr obj path := by
  intro path
  induction path with
  | nil => intro obj; rfl
  | cons p rest ih =>
    intro obj
    rw [List.foldl_cons]
    cases h : attr obj p with
    | some next =>
      have hstep : (some obj).bind (fun o => attr o p) = some next := by
        simp [h]
      rw [hstep, ih next]
      simp [walk_path, h]
    | none =>
      have hstep : (some obj).bind (fun o => attr o p) = none := by
        simp [h]
      rw [hstep, foldl_attr_none attr rest]
      simp [walk_path, h]

/-- C6: `get_all_parent_objects` returns exactly the ancestors reached by
walking each precomputed parent field-name path from the object by
successive attribute lookup, skipping (never including) every path that
resolves to an absent value at any step: it equals the `filterMap` of the
step-by-step path walk, so the returned list holds only present objects. -/
theorem get_all_parent_objects_spec {Obj : Type}
    (attr : Obj → List Char → Option Obj)
    (parent_paths : List (List (List Char))) (obj : Obj) :
    get_all_parent_objects attr parent_paths obj =
      parent_paths.filterMap (fun parent_path => walk_path attr obj parent_path) := by
  unfold get_all_parent_objects
  rw [List.filterMap_map]
  congr 1
  funext parent_path
  exact foldl_attr_eq_walk attr parent_path obj

/-- Embedding of `get_reversion_versions(obj)`: the version-history store is
modelled as a map from objects to their list of versions
(`Version.objects.get_for_object(obj)`), each list in the store's order. -/
def get_reversion_versions {Obj V : Type} (store : Obj → List V) (obj : Obj) :
    List V :=
  store obj

/-- Embedding of `get_all_obj_and_parent_versions_queryset_list(obj)`: the
version queryset of every parent object, then the object's own. -/
def get_all_obj_and_parent_versions_queryset_list {Obj V : Type}
    (attr : Obj → List Char → Option Obj)
    (parent_paths : List (List (List Char)))
    (store : Obj → List V) (obj : Obj) : List (List V) :=
  ((get_all_parent_objects attr parent_paths obj).map
      (fun i => get_reversion_versions store i)) ++
    [get_reversion_versions store obj]

/-- Embedding of `get_all_obj_and_parent_versions(obj)`: the flattening list
comprehension over the queryset list. -/
def get_all_obj_and_parent_versions {Obj V : Type}
    (attr : Obj → List Char → Option Obj)
    (parent_paths : List (List (List Char)))
    (store : Obj → List V) (obj : Obj) : List V :=
  (get_all_obj_and_parent_versions_queryset_list attr parent_paths store obj).flatten

/-- C7: `get_all_obj_and_parent_versions` is the concatenation of the
version lists fetched from the version-history store for each discovered
ancestor, followed by the object's own version list, each per-object list
kept in its internal order; and it equals the flattening of
`get_all_obj_and_parent_versions_queryset_list`. -/
theorem get_all_obj_and_parent_versions_spec {Obj V : Type}
    (attr : Obj → List Char → Option Obj)
    (parent_paths : List (List (List Char)))
    (store : Obj → List V) (obj : Obj) :
    get_all_obj_and_parent_versions attr parent_paths store obj =
      ((get_all_parent_objects attr parent_paths obj).map store).flatten ++
        store obj ∧
    get_all_obj_and_parent_versions attr parent_paths store obj =
      (get_all_obj_and_parent_versions_queryset_list attr parent_paths store obj).flatten := by
  constructor
  · unfold get_all_obj_and_parent_versions
      get_all_obj_and_parent_versions_queryset_list get_reversion_versions
    rw [List.flatten_append]
    simp
  · rfl
